import Mathlib

/-!
Verification development for the Strazzle string library.

The development shallowly embeds the two string containers of the repository:

* `Strazzle::String` (src/include/Strazzle/String.h): the SSO string.  Its
  state is modelled by `Strazzle.SStr`: `buf` is the block `_data` points at
  (the 16-byte SSO buffer initially, a heap block after `ToLarge`), `freed`
  records whether that block has been released (`ToSmall` frees the heap block
  without repointing `_data`), `len` is `_len`, `mode` is `_mode` and
  `resExp` is `_reserved_exp`.  Byte stores beyond the block are dropped and
  byte loads beyond it yield 0, mirroring that such accesses touch memory
  outside the allocation.
* `Strazzle::BaseString` / `Strazzle::StringAllocator` (src/include/BaseString.h,
  second variant): modelled by `Strazzle.BStr` / `Strazzle.Alloc`.  Allocation
  is modelled by a boolean oracle `ok`: when `ok` is false, `new` yields a
  null result, which is the allocation-failure path of `ReallocToExp`.

Machine words are modelled as `Nat`; `subSize` performs the one 64-bit
subtraction that can actually underflow in a reachable trace.
-/

namespace Strazzle

/-- Byte load from a buffer; out-of-range loads read memory outside the
allocation and are modelled as 0. -/
def getB : List Nat → Nat → Nat
  | [], _ => 0
  | b :: _, 0 => b
  | _ :: bs, n + 1 => getB bs n

/-- Byte store into a buffer; out-of-range stores leave the block unchanged. -/
def upd : List Nat → Nat → Nat → List Nat
  | [], _, _ => []
  | _ :: bs, 0, v => v :: bs
  | b :: bs, n + 1, v => b :: upd bs n v

/-- `memcpy(buf + off, src, src.length)` with a non-overlapping source. -/
def writeRange (buf : List Nat) (off : Nat) : List Nat → List Nat
  | [] => buf
  | b :: bs => writeRange (upd buf off b) (off + 1) bs

/-- `[f off, f (off+1), ..., f (off+n-1)]`. -/
def blockOfAux (f : Nat → Nat) (off : Nat) : Nat → List Nat
  | 0 => []
  | n + 1 => f off :: blockOfAux f (off + 1) n

/-- A fresh `n`-byte block whose byte `t` is `f t`. -/
def blockOf (n : Nat) (f : Nat → Nat) : List Nat := blockOfAux f 0 n

/-- `memmove(buf + dst, buf + src, cnt)`: copies as if through a snapshot. -/
def memmoveL (buf : List Nat) (dst src cnt : Nat) : List Nat :=
  writeRange buf dst (blockOf cnt (fun t => getB buf (src + t)))

/-- `strlen`: number of bytes before the first 0. -/
def cstrlen : List Nat → Nat
  | [] => 0
  | b :: bs => if b = 0 then 0 else cstrlen bs + 1

/-- 64-bit `size_t` subtraction `a - b` (wraps on underflow). -/
def subSize (a b : Nat) : Nat := ((a + 2 ^ 64) - b) % 2 ^ 64

/-- Number of binary digits of `x`, computed with 64 bits of fuel; agrees with
the mathematical bit length for every `x < 2^64`. -/
def bitlenAux : Nat → Nat → Nat
  | 0, _ => 0
  | fuel + 1, x => if x = 0 then 0 else bitlenAux fuel (x / 2) + 1

def bitlen (x : Nat) : Nat := bitlenAux 64 x

/-- `_clz` / `clz` (String.h line 24, BaseString.h line 759): leading zeros of
a 64-bit word, 64 for the zero word. -/
def clz (x : Nat) : Nat := 64 - bitlen x

/-- `_GetExponent` (String.h lines 33-37). -/
def getExponent (x : Nat) : Nat :=
  if clz x ≠ clz (x - 1) ∧ x ≠ 0 then 63 - clz x else 64 - clz x

/-- `StringAllocator::NextExponent` (BaseString.h lines 769-771). -/
def NextExponent (x : Nat) : Nat := 64 - clz x

/-- `_ExpToNum` (String.h lines 15-17): `exp != 0 ? 1UL << exp : 0`. -/
def expToNum (exp : Nat) : Nat := if exp ≠ 0 then 2 ^ exp else 0

/-- `SSO_SIZE` (String.h line 39). -/
def SSO_SIZE : Nat := 16

/-- `String::Mode` (String.h line 106); `NONE` is never stored, so the stored
mode is one of these two. -/
inductive Mode where
  | small : Mode
  | large : Mode
deriving DecidableEq, Repr

/-- State of a `Strazzle::String`.  `buf` is the block `_data` points at (its
length is that block's byte capacity), `freed` says whether that block has
been `free`d, `len` is `_len`, `mode` is `_mode`, `resExp` is
`_reserved_exp`. -/
structure SStr where
  buf : List Nat
  freed : Bool
  len : Nat
  mode : Mode
  resExp : Nat
deriving DecidableEq, Repr

/-- `String()` (String.h lines 85-87): `_data` points at the 16-byte SSO
buffer (contents modelled as zeros), `_data[0] = 0`, length 0, small mode. -/
def mkString : SStr :=
  { buf := List.replicate 16 0, freed := false, len := 0, mode := .small, resExp := 0 }

/-- `String::GetNewMode` (String.h lines 391-401); `none` is `Mode::NONE`. -/
def getNewMode (s : SStr) (size : Nat) : Option Mode :=
  if SSO_SIZE ≤ s.len ∧ size < SSO_SIZE then some .small
  else if s.len < SSO_SIZE ∧ SSO_SIZE < size then some .large
  else none

/-- `String::ToLarge` (String.h lines 425-437): malloc a `2^exp` block, copy
the first `_len` bytes, point `_data` at it, switch to large mode. -/
def ToLarge (s : SStr) (exp : Nat) : SStr :=
  { s with
    buf := blockOf (expToNum exp) (fun t => if t < s.len then getB s.buf t else 0)
    freed := false
    mode := .large }

/-- `String::ToSmall` (String.h lines 442-454): clamp `_len` to 16, copy to the
SSO buffer, `free(_data)` and switch the mode flag — note the source never
repoints `_data` at the SSO buffer, so the pointed block is now freed. -/
def ToSmall (s : SStr) : SStr :=
  { s with len := min SSO_SIZE s.len, freed := true, mode := .small }

/-- `String::Realloc` (String.h lines 369-383): malloc `_ExpToNum(exp)` bytes,
copy `min(byte_c, _len)` bytes from the old block, free it and adopt. -/
def ReallocS (s : SStr) (exp : Nat) : SStr :=
  { s with
    buf := blockOf (expToNum exp)
      (fun t => if t < min (expToNum exp) s.len then getB s.buf t else 0)
    freed := false }

/-- `String::ChangeMode` (String.h lines 408-419). -/
def ChangeMode (s : SStr) (m : Mode) (exp : Nat) : SStr :=
  match m with
  | .large => ToLarge s exp
  | .small => ToSmall s

/-- `String::ResizeAllocation` (String.h lines 346-363). -/
def ResizeAllocation (s : SStr) (size : Nat) : SStr :=
  let newExp := getExponent size
  if newExp < s.resExp then s
  else
    match getNewMode s size with
    | some m => ChangeMode s m newExp
    | none => if s.mode = .large then ReallocS s newExp else s

/-- `String::Append(const char*, size)` (String.h lines 136-146). -/
def AppendS (s : SStr) (str : List Nat) (sz : Nat) : SStr :=
  let n := min (cstrlen str) sz
  let s1 := ResizeAllocation s (n + s.len + 1)
  let buf2 := writeRange s1.buf s1.len (str.take n)
  let len2 := n + s1.len
  { s1 with buf := upd buf2 len2 0, len := len2 }

/-- `String::Insert(const char*, i, size)` (String.h lines 178-192); `none`
models the thrown `std::out_of_range`. -/
def InsertS (s : SStr) (str : List Nat) (i sz : Nat) : Option SStr :=
  if s.len < i then none
  else
    let n := min (cstrlen str) sz
    let s1 := ResizeAllocation s (n + s.len + 1)
    let buf2 := memmoveL s1.buf (i + n) i (s1.len - i)
    let buf3 := writeRange buf2 i (str.take n)
    let len2 := n + s1.len
    some { s1 with buf := upd buf3 len2 0, len := len2 }

/-- `String::Erase` (String.h lines 225-237); `none` models the thrown
`std::out_of_range`.  The final `_len = _len - size` reads `_len` after
`ResizeAllocation` (which may have clamped it) and is a `size_t`
subtraction, hence `subSize`. -/
def EraseS (s : SStr) (i sz : Nat) : Option SStr :=
  if s.len ≤ i then none
  else
    let n := min (s.len - i) sz
    let buf2 := memmoveL s.buf i (i + n) (s.len - i)
    let s1 := ResizeAllocation { s with buf := buf2 } (s.len - n)
    let len2 := subSize s1.len n
    some { s1 with buf := upd s1.buf len2 0, len := len2 }

/-- `String::Resize(size, char fill)` (String.h lines 244-254). -/
def ResizeC (s : SStr) (size : Nat) (fill : Nat) : SStr :=
  let s1 := ResizeAllocation s (size + 1)
  let buf2 :=
    if s1.len < size then writeRange s1.buf s1.len (List.replicate (size - s1.len) fill)
    else s1.buf
  { s1 with buf := upd buf2 size 0, len := size }

/-- The `while(_len < size)` fill loop of `String::Resize(size, const char*)`
(String.h lines 267-270), with explicit fuel; each iteration copies
`_len + str_len <= size ? str_len : size - _len` bytes of `fill` at `_len`
and then advances `_len` by the full `str_len`. -/
def fillLoop : Nat → List Nat → Nat → Nat → List Nat → Option (List Nat × Nat)
  | 0, _, _, _, _ => none
  | fuel + 1, buf, len, size, fill =>
    if len < size then
      let sl := cstrlen fill
      let cnt := if len + sl ≤ size then sl else size - len
      fillLoop fuel (writeRange buf len (fill.take cnt)) (len + sl) size fill
    else some (buf, len)

/-- `String::Resize(size, const char* fill)` (String.h lines 261-276); `none`
means the fill loop did not finish within `size + 1` iterations (with a
non-empty fill it always does, see `fillLoop_completes`). -/
def ResizeF (s : SStr) (size : Nat) (fill : List Nat) : Option SStr :=
  let s1 := ResizeAllocation s (size + 1)
  if s1.len < size then
    match fillLoop (size + 1) s1.buf s1.len size fill with
    | none => none
    | some (buf2, len2) => some { s1 with buf := upd buf2 len2 0, len := len2 }
  else some { s1 with buf := upd s1.buf size 0, len := size }

/-- `String::Reserve` (String.h lines 324-332): overwrites `_reserved_exp`
with `_GetExponent(size)` unconditionally, then resizes the allocation when
`_GetExponent(_len)` is below the new reservation. -/
def Reserve (s : SStr) (size : Nat) : SStr :=
  let s1 := { s with resExp := getExponent size }
  if getExponent s1.len < s1.resExp then ResizeAllocation s1 size else s1

/-- `String::RefSubstr` (String.h lines 312-318): yields the `(_i, _len)` pair
of the created `Reference`; `none` models the thrown `std::out_of_range`. -/
def RefSubstrS (s : SStr) (i sz : Nat) : Option (Nat × Nat) :=
  if s.len ≤ i then none else some (i, min (s.len - i) sz)

/-- `String::Append(const Reference&, size)` (String.h lines 164-170): first
`ref.CheckBounds()` against the base's current `_len` (String.h lines 76-79),
then `Append(ref._base._data + ref._i, min(ref._len, size))`. -/
def AppendRef (t base : SStr) (ri rn sz : Nat) : Option SStr :=
  if base.len < ri + rn then none
  else some (AppendS t (base.buf.drop ri) (min rn sz))

/-- `String::Insert(const Reference&, i, size)` (String.h lines 212-218):
`ref.CheckBounds()`, then `Insert(ref._base._data + ref._i, i, min(ref._len, size))`. -/
def InsertRef (t base : SStr) (ri rn j sz : Nat) : Option SStr :=
  if base.len < ri + rn then none
  else InsertS t (base.buf.drop ri) j (min rn sz)

/-- Effective capacity of the container: the fixed 16-byte SSO buffer in small
mode, the pointed heap block's size in large mode. -/
def effCap (s : SStr) : Nat := if s.mode = .small then SSO_SIZE else s.buf.length

/-- The content a `Strazzle::String` reports: the first `_len` bytes behind
`_data`. -/
def content (s : SStr) : List Nat := s.buf.take s.len

/-- Applies a list of `Erase(i, size)` calls in order; a call that throws
leaves the string unchanged. -/
def eraseSeq (s : SStr) : List (Nat × Nat) → SStr
  | [] => s
  | (i, sz) :: rest =>
    match EraseS s i sz with
    | some t => eraseSeq t rest
    | none => eraseSeq s rest

/-- `StringAllocError` (BaseString.h line 259). -/
inductive StringAllocError where
  | ok : StringAllocError
  | allocErr : StringAllocError
  | ignored : StringAllocError
deriving DecidableEq, Repr

/-- `BaseStringError` (BaseString.h line 266). -/
inductive BaseStringError where
  | ok : BaseStringError
  | allocErr : BaseStringError
deriving DecidableEq, Repr

/-- State of a `Strazzle::StringAllocator<char>`: `c` is the owned block
(`none` is a null pointer), `size_exp` and `actual_exp` the two exponents. -/
structure Alloc where
  c : Option (List Nat)
  size_exp : Nat
  actual_exp : Nat
deriving DecidableEq, Repr

/-- `StringAllocator::ReallocToExp` (BaseString.h lines 715-736); `ok` is the
allocation oracle: when it is false `new` yields no block and the function
reports `ALLOC_ERR` leaving the allocator untouched.  On success it copies
`size` bytes from the old block (reading past its end yields junk, modelled
as 0) and adopts the new block and exponent. -/
def ReallocToExp (ok : Bool) (a : Alloc) (exponent : Nat) : StringAllocError × Alloc :=
  let size := 2 ^ exponent
  if ok then
    let nc := match a.c with
      | some old => blockOf size (fun t => getB old t)
      | none => blockOf size (fun _ => 0)
    (.ok, { c := some nc, size_exp := exponent, actual_exp := exponent })
  else (.allocErr, a)

/-- `StringAllocator::Shrink` (BaseString.h lines 673-687): ignores requests
not below the current size, otherwise lowers `size_exp` first and only
reallocates when the gap to `actual_size_exp` is at least 2. -/
def ShrinkA (ok : Bool) (a : Alloc) (size : Nat) : StringAllocError × Alloc :=
  if 2 ^ a.size_exp ≤ size ∨ a.c = none then (.ignored, a)
  else
    let e := NextExponent (if size ≠ 0 then size - 1 else 0)
    let a1 := { a with size_exp := e }
    if 2 ≤ a1.actual_exp - e then
      match ReallocToExp ok a1 e with
      | (.allocErr, a2) => (.allocErr, a2)
      | (_, a2) => (.ok, a2)
    else (.ok, a1)

/-- `StringAllocator::Realloc` (BaseString.h lines 697-705). -/
def ReallocA (ok : Bool) (a : Alloc) (size : Nat) : StringAllocError × Alloc :=
  match ReallocToExp ok a (NextExponent size) with
  | (.allocErr, a2) => (.allocErr, a2)
  | (_, a2) => (.ok, a2)

/-- `StringAllocator::Resize` (BaseString.h lines 647-661): reads the current
size, reallocates (discarding the result) if the block is null, then shrinks,
grows or ignores. -/
def ResizeA (ok : Bool) (a : Alloc) (size : Nat) : StringAllocError × Alloc :=
  let current := 2 ^ a.size_exp
  let a0 := if a.c = none then (ReallocA ok a size).2 else a
  if size < current then ShrinkA ok a0 size
  else if current < size then ReallocA ok a0 size
  else (.ignored, a0)

/-- State of a `Strazzle::BaseString<char>`. -/
structure BStr where
  alloc : Alloc
  l : Nat
deriving DecidableEq, Repr

/-- `BaseString(const CharT*, size)` (BaseString.h lines 298-314), run with a
succeeding allocator. -/
def fromCStringB (str : List Nat) (sz : Nat) : BStr :=
  let n := min sz (cstrlen str)
  let a1 := (ResizeA true { c := none, size_exp := 0, actual_exp := 0 } (n + 1)).2
  let buf := a1.c.getD []
  let buf2 := writeRange buf 0 (str.take n)
  { alloc := { a1 with c := some (upd buf2 n 0) }, l := n }

/-- `BaseString::Append` (BaseString.h lines 346-365): resize first, return
`ALLOC_ERR` on failure, otherwise copy at the end, bump `l`, terminate. -/
def AppendB (ok : Bool) (bs : BStr) (str : List Nat) (sz : Nat) : BaseStringError × BStr :=
  let n := min sz (cstrlen str)
  match ResizeA ok bs.alloc (bs.l + n + 1) with
  | (.allocErr, a1) => (.allocErr, { bs with alloc := a1 })
  | (_, a1) =>
    let buf := a1.c.getD []
    let buf2 := writeRange buf bs.l (str.take n)
    (.ok, { alloc := { a1 with c := some (upd buf2 (bs.l + n) 0) }, l := bs.l + n })

/-- `BaseString::Erase` (BaseString.h lines 409-428): bounds check (`none`
models the thrown exception), clamp `size` to `l` (not `l - i`), shift
`l` bytes left, update `l` and terminate, and only then try to shrink —
reporting `ALLOC_ERR` with the erase already applied if that fails. -/
def EraseB (ok : Bool) (bs : BStr) (i sz : Nat) : Option (BaseStringError × BStr) :=
  if bs.l ≤ i then none
  else
    let n := min sz bs.l
    let buf := bs.alloc.c.getD []
    let buf2 := memmoveL buf i (i + n) bs.l
    let l2 := bs.l - n
    let a1 := { bs.alloc with c := some (upd buf2 l2 0) }
    match ResizeA ok a1 (l2 + 1) with
    | (.allocErr, a2) => some (.allocErr, { alloc := a2, l := l2 })
    | (_, a2) => some (.ok, { alloc := a2, l := l2 })

/-- `BaseString::Insert` (BaseString.h lines 375-400): `i == l` delegates to
`Append`; otherwise bounds check (`none` models the thrown exception), resize
first — returning `ALLOC_ERR` with the string untouched on failure — then
shift the tail right by the full `strlen(str)` (not the clamped length),
copy the clamped bytes in, bump `l` and terminate. -/
def InsertB (ok : Bool) (bs : BStr) (i : Nat) (str : List Nat) (sz : Nat) :
    Option (BaseStringError × BStr) :=
  if i = bs.l then some (AppendB ok bs str sz)
  else if bs.l ≤ i then none
  else
    let n := min sz (cstrlen str)
    match ResizeA ok bs.alloc (bs.l + n + 1) with
    | (.allocErr, a1) => some (.allocErr, { bs with alloc := a1 })
    | (_, a1) =>
      let buf := a1.c.getD []
      let buf2 := memmoveL buf (i + cstrlen str) i (bs.l - i)
      let buf3 := writeRange buf2 i (str.take n)
      some (.ok, { alloc := { a1 with c := some (upd buf3 (bs.l + n) 0) }, l := bs.l + n })

/-- The `for(i = l; i < size;)` fill loop of `BaseString::Resize`
(BaseString.h lines 451-459), with explicit fuel: a partial final repetition
appends `(i + sl) - size` bytes and breaks, a full one appends the whole fill
(`Append`'s error results are discarded, as in the source). -/
def fillLoopB (ok : Bool) : Nat → BStr → Nat → Nat → List Nat → Option BStr
  | 0, _, _, _, _ => none
  | fuel + 1, bs, i, size, fill =>
    if i < size then
      let sl := cstrlen fill
      if size < i + sl then some (AppendB ok bs fill ((i + sl) - size)).2
      else fillLoopB ok fuel (AppendB ok bs fill (2 ^ 64 - 1)).2 (i + sl) size fill
    else some bs

/-- `BaseString::Resize` (BaseString.h lines 438-466): resize the allocation
first — returning `ALLOC_ERR` with the string untouched on failure — then,
when growing, run the fill loop (`none` means it did not finish: the
`fill == ""` guard is a pointer comparison against a literal, so a
caller-supplied empty string is not replaced and loops forever), finally set
`l = size` and terminate. -/
def ResizeB (ok : Bool) (bs : BStr) (size : Nat) (fill : List Nat) :
    Option (BaseStringError × BStr) :=
  match ResizeA ok bs.alloc (size + 1) with
  | (.allocErr, a1) => some (.allocErr, { bs with alloc := a1 })
  | (_, a1) =>
    let bs1 : BStr := { bs with alloc := a1 }
    match (if bs1.l < size then fillLoopB ok (size + 1) bs1 bs1.l size fill else some bs1) with
    | none => none
    | some bs2 =>
      some (.ok, {
        alloc := { bs2.alloc with c := some (upd (bs2.alloc.c.getD []) size 0) }
        l := size })

end Strazzle

namespace Strazzle

/-! ### Buffer lemmas -/

@[simp] theorem length_upd (l : List Nat) (i v : Nat) : (upd l i v).length = l.length := by
  induction l generalizing i with
  | nil => rfl
  | cons b bs ih => cases i <;> simp [upd, ih]

theorem getB_upd (l : List Nat) (i j v : Nat) :
    getB (upd l i v) j = if i = j ∧ j < l.length then v else getB l j := by
  induction l generalizing i j with
  | nil => simp [upd, getB]
  | cons b bs ih =>
    cases i with
    | zero =>
      cases j with
      | zero => simp [upd, getB]
      | succ j => simp [upd, getB]
    | succ i =>
      cases j with
      | zero => simp [upd, getB]
      | succ j =>
        simp only [upd, getB, ih, List.length_cons]
        by_cases h : i = j ∧ j < bs.length
        · rw [if_pos h, if_pos ⟨by omega, by omega⟩]
        · rw [if_neg h, if_neg (by omega)]

@[simp] theorem length_writeRange (bs : List Nat) (buf : List Nat) (off : Nat) :
    (writeRange buf off bs).length = buf.length := by
  induction bs generalizing buf off with
  | nil => rfl
  | cons b bs ih => simp [writeRange, ih]

theorem getB_writeRange (bs : List Nat) (buf : List Nat) (off j : Nat) :
    getB (writeRange buf off bs) j =
      if off ≤ j ∧ j < off + bs.length ∧ j < buf.length then getB bs (j - off)
      else getB buf j := by
  induction bs generalizing buf off with
  | nil =>
    simp only [writeRange, List.length_nil]
    rw [if_neg (by omega)]
  | cons b bs ih =>
    simp only [writeRange, List.length_cons]
    rw [ih, length_upd, getB_upd]
    by_cases hA : off + 1 ≤ j ∧ j < off + 1 + bs.length ∧ j < buf.length
    · rw [if_pos hA,
        if_pos (show off ≤ j ∧ j < off + (bs.length + 1) ∧ j < buf.length by omega)]
      obtain ⟨d, hd⟩ : ∃ d, j - off = d + 1 := ⟨j - off - 1, by omega⟩
      rw [hd]
      show getB bs (j - (off + 1)) = getB bs d
      congr 1
      omega
    · rw [if_neg hA]
      by_cases hB : off = j ∧ j < buf.length
      · rw [if_pos hB,
          if_pos (show off ≤ j ∧ j < off + (bs.length + 1) ∧ j < buf.length by omega)]
        obtain ⟨rfl, h2⟩ := hB
        rw [Nat.sub_self]
        rfl
      · rw [if_neg hB, if_neg (by omega)]

@[simp] theorem length_blockOfAux (f : Nat → Nat) (off n : Nat) :
    (blockOfAux f off n).length = n := by
  induction n generalizing off with
  | zero => rfl
  | succ n ih => simp [blockOfAux, ih]

@[simp] theorem length_blockOf (n : Nat) (f : Nat → Nat) : (blockOf n f).length = n :=
  length_blockOfAux f 0 n

theorem getB_blockOfAux (f : Nat → Nat) (off n t : Nat) :
    getB (blockOfAux f off n) t = if t < n then f (off + t) else 0 := by
  induction n generalizing off t with
  | zero => simp [blockOfAux, getB]
  | succ n ih =>
    cases t with
    | zero => simp [blockOfAux, getB]
    | succ t =>
      simp only [blockOfAux, getB, ih]
      by_cases h : t < n
      · rw [if_pos h, if_pos (by omega)]
        congr 1
        omega
      · rw [if_neg h, if_neg (by omega)]

theorem getB_blockOf (n : Nat) (f : Nat → Nat) (t : Nat) :
    getB (blockOf n f) t = if t < n then f t else 0 := by
  simpa using getB_blockOfAux f 0 n t

@[simp] theorem length_memmoveL (buf : List Nat) (dst src cnt : Nat) :
    (memmoveL buf dst src cnt).length = buf.length := by
  simp [memmoveL]

theorem getB_memmoveL (buf : List Nat) (dst src cnt j : Nat) :
    getB (memmoveL buf dst src cnt) j =
      if dst ≤ j ∧ j < dst + cnt ∧ j < buf.length then getB buf (src + (j - dst))
      else getB buf j := by
  unfold memmoveL
  rw [getB_writeRange]
  simp only [length_blockOf]
  by_cases h : dst ≤ j ∧ j < dst + cnt ∧ j < buf.length
  · rw [if_pos h, if_pos h, getB_blockOf, if_pos (by omega)]
  · rw [if_neg h, if_neg h]

theorem getB_take (l : List Nat) (n t : Nat) :
    getB (l.take n) t = if t < n then getB l t else 0 := by
  induction l generalizing n t with
  | nil => simp [getB]
  | cons b bs ih =>
    cases n with
    | zero => simp [getB]
    | succ n =>
      cases t with
      | zero => simp [getB]
      | succ t => simpa [getB] using ih n t

theorem getB_drop (l : List Nat) (n t : Nat) : getB (l.drop n) t = getB l (n + t) := by
  induction l generalizing n with
  | nil => simp [getB]
  | cons b bs ih =>
    cases n with
    | zero => simp
    | succ n =>
      show getB (bs.drop n) t = getB (b :: bs) (n + 1 + t)
      rw [ih n, show n + 1 + t = (n + t) + 1 from by omega]
      rfl

theorem getB_eq_zero_of_le (l : List Nat) (t : Nat) (h : l.length ≤ t) : getB l t = 0 := by
  induction l generalizing t with
  | nil => simp [getB]
  | cons b bs ih =>
    cases t with
    | zero => simp at h
    | succ t => simpa [getB] using ih t (by simpa using h)

theorem ext_getB (l1 l2 : List Nat) (hlen : l1.length = l2.length)
    (h : ∀ t, t < l1.length → getB l1 t = getB l2 t) : l1 = l2 := by
  induction l1 generalizing l2 with
  | nil => cases l2 <;> simp_all
  | cons b bs ih =>
    cases l2 with
    | nil => simp at hlen
    | cons c cs =>
      have hb := h 0 (by simp)
      simp only [getB] at hb
      subst hb
      have := ih cs (by simpa using hlen)
        (fun t ht => by simpa [getB] using h (t + 1) (by simpa using Nat.succ_lt_succ ht))
      simp [this]

theorem cstrlen_eq_length (l : List Nat) (h : ∀ t, t < l.length → getB l t ≠ 0) :
    cstrlen l = l.length := by
  induction l with
  | nil => rfl
  | cons b bs ih =>
    have hb := h 0 (by simp)
    simp only [getB] at hb
    simp only [cstrlen, if_neg hb, List.length_cons]
    rw [ih (fun t ht => by simpa [getB] using h (t + 1) (by simpa using Nat.succ_lt_succ ht))]

theorem subSize_eq (a b : Nat) (hb : b ≤ a) (ha : a - b < 2 ^ 64) : subSize a b = a - b := by
  unfold subSize
  have h1 : a + 2 ^ 64 - b = (a - b) + 2 ^ 64 := by omega
  rw [h1, Nat.add_mod_right, Nat.mod_eq_of_lt ha]

end Strazzle

namespace Strazzle

/-! ### Bit-length lemmas -/

theorem bitlenAux_zero (fuel : Nat) : bitlenAux fuel 0 = 0 := by
  cases fuel <;> rfl

theorem bitlenAux_le (fuel x : Nat) : bitlenAux fuel x ≤ fuel := by
  induction fuel generalizing x with
  | zero => simp [bitlenAux]
  | succ fuel ih =>
    by_cases hx : x = 0
    · simp [bitlenAux, hx]
    · simpa [bitlenAux, hx] using ih (x / 2)

theorem lt_two_pow_bitlenAux (fuel x : Nat) (h : x < 2 ^ fuel) : x < 2 ^ bitlenAux fuel x := by
  induction fuel generalizing x with
  | zero => simpa [bitlenAux] using h
  | succ fuel ih =>
    by_cases hx : x = 0
    · simp [bitlenAux, hx]
    · have hdiv : x / 2 < 2 ^ fuel := by
        rw [Nat.pow_succ] at h
        omega
      have hB := ih (x / 2) hdiv
      simp only [bitlenAux, hx, if_neg, ite_false, Nat.pow_succ]
      omega

theorem two_pow_bitlenAux_pred_le (fuel x : Nat) (h : 1 ≤ x) :
    2 ^ (bitlenAux fuel x - 1) ≤ x := by
  induction fuel generalizing x with
  | zero => simpa [bitlenAux] using h
  | succ fuel ih =>
    have hx : x ≠ 0 := by omega
    simp only [bitlenAux, hx, ite_false, Nat.add_sub_cancel]
    by_cases h2 : 2 ≤ x
    · have hd : 1 ≤ x / 2 := by omega
      have hIH := ih (x / 2) hd
      rcases Nat.eq_zero_or_pos (bitlenAux fuel (x / 2)) with hb | hb
      · simpa [hb] using h
      · obtain ⟨b, hb'⟩ : ∃ b, bitlenAux fuel (x / 2) = b + 1 :=
          ⟨bitlenAux fuel (x / 2) - 1, by omega⟩
        rw [hb'] at hIH ⊢
        simp only [Nat.add_sub_cancel] at hIH
        rw [Nat.pow_succ]
        omega
    · have hx1 : x = 1 := by omega
      subst hx1
      simp [bitlenAux_zero]

theorem bitlen_le_64 (x : Nat) : bitlen x ≤ 64 := bitlenAux_le 64 x

theorem lt_two_pow_bitlen (x : Nat) (h : x < 2 ^ 64) : x < 2 ^ bitlen x :=
  lt_two_pow_bitlenAux 64 x h

theorem two_pow_bitlen_pred_le (x : Nat) (h : 1 ≤ x) : 2 ^ (bitlen x - 1) ≤ x :=
  two_pow_bitlenAux_pred_le 64 x h

theorem bitlen_le_iff (x e : Nat) (hx : x < 2 ^ 64) : bitlen x ≤ e ↔ x < 2 ^ e := by
  constructor
  · intro h
    exact Nat.lt_of_lt_of_le (lt_two_pow_bitlen x hx) (Nat.pow_le_pow_right (by omega) h)
  · intro h
    by_contra hgt
    push_neg at hgt
    rcases Nat.eq_zero_or_pos x with rfl | hpos
    · simp [bitlen, bitlenAux_zero] at hgt
    · have h1 : 2 ^ e ≤ 2 ^ (bitlen x - 1) := Nat.pow_le_pow_right (by omega) (by omega)
      have h2 := two_pow_bitlen_pred_le x hpos
      omega

theorem bitlen_zero : bitlen 0 = 0 := bitlenAux_zero 64

theorem bitlen_pos (x : Nat) (h : 1 ≤ x) : 1 ≤ bitlen x := by
  by_contra hb
  push_neg at hb
  have : bitlen x ≤ 0 := by omega
  have hx64 : x < 2 ^ 64 ∨ 2 ^ 64 ≤ x := by omega
  rcases hx64 with hx64 | hx64
  · have := (bitlen_le_iff x 0 hx64).1 this
    simp at this
    omega
  · have h1 := lt_two_pow_bitlenAux 64 1 (by norm_num)
    -- bitlen is monotone enough here: directly, bitlenAux 64 x = 0 forces x = 0
    unfold bitlen at this
    cases hx : bitlenAux 64 x with
    | zero =>
      -- from the definition, bitlenAux (fuel+1) x = 0 only when x = 0
      have : x = 0 := by
        by_contra hne
        simp [bitlenAux, hne] at hx
      omega
    | succ n => omega

end Strazzle

namespace Strazzle

/-! ### Exponent arithmetic lemmas -/

theorem getExponent_spec (x : Nat) (hx : x < 2 ^ 64) :
    x ≤ 2 ^ getExponent x ∧ ∀ e, x ≤ 2 ^ e → getExponent x ≤ e := by
  rcases Nat.eq_zero_or_pos x with rfl | hpos
  · have h0 : getExponent 0 = 0 := by decide
    rw [h0]
    exact ⟨by norm_num, fun e _ => by omega⟩
  · have hL1 : 1 ≤ bitlen x := bitlen_pos x hpos
    have hL64 : bitlen x ≤ 64 := bitlen_le_64 x
    have hL64' : bitlen (x - 1) ≤ 64 := bitlen_le_64 (x - 1)
    have hxlt : x < 2 ^ bitlen x := lt_two_pow_bitlen x hx
    have hmono : bitlen (x - 1) ≤ bitlen x :=
      (bitlen_le_iff (x - 1) (bitlen x) (by omega)).2 (by omega)
    by_cases hne : bitlen (x - 1) = bitlen x
    · have hval : getExponent x = bitlen x := by
        unfold getExponent
        rw [if_neg (by unfold clz; rw [hne]; simp)]
        unfold clz
        omega
      rw [hval]
      refine ⟨by omega, fun e he => ?_⟩
      have h1 : bitlen (x - 1) ≤ e := (bitlen_le_iff (x - 1) e (by omega)).2 (by omega)
      omega
    · have hval : getExponent x = bitlen x - 1 := by
        unfold getExponent
        rw [if_pos ⟨by unfold clz; omega, by omega⟩]
        unfold clz
        omega
      rw [hval]
      have hlt : bitlen (x - 1) ≤ bitlen x - 1 := by omega
      have hx1 : x - 1 < 2 ^ (bitlen x - 1) :=
        (bitlen_le_iff (x - 1) (bitlen x - 1) (by omega)).1 hlt
      refine ⟨by omega, fun e he => ?_⟩
      have h2 : 2 ^ (bitlen x - 1) ≤ x := two_pow_bitlen_pred_le x hpos
      by_contra hc
      push_neg at hc
      have h3 := Nat.pow_lt_pow_right (a := 2) (by omega) hc
      omega

theorem expToNum_mono (a b : Nat) (h : a ≤ b) : expToNum a ≤ expToNum b := by
  unfold expToNum
  rcases Nat.eq_zero_or_pos a with rfl | ha
  · simp
  · rw [if_pos (by omega), if_pos (by omega)]
    exact Nat.pow_le_pow_right (by omega) h

theorem getExponent_le_four_of_le_16 (n : Nat) (h : n ≤ 16) : getExponent n ≤ 4 := by
  interval_cases n <;> decide

end Strazzle

namespace Strazzle

/-! ### Claim C4 -/

/-- C4 counterexample: the claim demands `exponentFor(2^k) = k` exactly, "not
k + 1", for the cited implementations; the allocator's `NextExponent`
(BaseString.h lines 769-771) returns `k + 1` at the power of two `2^4 = 16`. -/
theorem c4_nextExponent_power_cex : NextExponent (2 ^ 4) = 4 + 1 ∧ NextExponent (2 ^ 4) ≠ 4 := by
  decide

/-- C4 amended: `_GetExponent` (String.h) is exactly the smallest `e` with
`2^e ≥ size`, sends 0 to 0, and is exact at powers of two (`_GetExponent(2^k)
= k` for `k ≤ 63`); the allocator's `NextExponent` instead computes the bit
length, which is `k + 1` at `2^k`, and its `Shrink` call site compensates by
passing `size - 1`, making `NextExponent(size - 1)` agree with
`_GetExponent(size)` for every positive `size`. -/
theorem c4_exponent_correct :
    (∀ x, x < 2 ^ 64 → x ≤ 2 ^ getExponent x ∧ ∀ e, x ≤ 2 ^ e → getExponent x ≤ e) ∧
    getExponent 0 = 0 ∧
    (∀ k, k ≤ 63 → getExponent (2 ^ k) = k) ∧
    (∀ k, k ≤ 63 → NextExponent (2 ^ k) = k + 1) ∧
    (∀ x, 1 ≤ x → x < 2 ^ 64 → NextExponent (x - 1) = getExponent x) := by
  have hspec := getExponent_spec
  refine ⟨fun x hx => hspec x hx, by decide, ?_, ?_, ?_⟩
  · intro k hk
    have hklt : (2 : Nat) ^ k < 2 ^ 64 := Nat.pow_lt_pow_right (by omega) (by omega)
    obtain ⟨h1, h2⟩ := hspec (2 ^ k) hklt
    have hle : getExponent (2 ^ k) ≤ k := h2 k (le_refl _)
    have hge : k ≤ getExponent (2 ^ k) := by
      by_contra hc
      push_neg at hc
      have := Nat.pow_lt_pow_right (a := 2) (by omega) hc
      omega
    omega
  · intro k hk
    have hklt : (2 : Nat) ^ k < 2 ^ 64 := Nat.pow_lt_pow_right (by omega) (by omega)
    have hb64 : bitlen (2 ^ k) ≤ 64 := bitlen_le_64 _
    have h1 : bitlen (2 ^ k) ≤ k + 1 :=
      (bitlen_le_iff _ _ hklt).2 (Nat.pow_lt_pow_right (by omega) (by omega))
    have h2 : ¬ bitlen (2 ^ k) ≤ k := by
      intro hc
      have := (bitlen_le_iff _ _ hklt).1 hc
      omega
    unfold NextExponent clz
    omega
  · intro x hx1 hx
    have hb64 : bitlen (x - 1) ≤ 64 := bitlen_le_64 _
    obtain ⟨h1, h2⟩ := getExponent_spec x hx
    have hle : bitlen (x - 1) ≤ getExponent x := (bitlen_le_iff _ _ (by omega)).2 (by omega)
    have hge : getExponent x ≤ bitlen (x - 1) := by
      have hlt : x - 1 < 2 ^ bitlen (x - 1) := lt_two_pow_bitlen _ (by omega)
      exact h2 _ (by omega)
    unfold NextExponent clz
    omega

/-- C4 witness: the amended theorem applied at the concrete size 21 and at the
power `2^4`. -/
theorem c4_exponent_correct_witness :
    21 ≤ 2 ^ getExponent 21 ∧ getExponent (2 ^ 4) = 4 :=
  ⟨(c4_exponent_correct.1 21 (by norm_num)).1, c4_exponent_correct.2.2.1 4 (by norm_num)⟩

/-! ### Claim C1 -/

/-- C1 (code bug): after appending 33 bytes to an empty `String` (capacity 64)
and erasing one byte, `Erase` requests `ResizeAllocation(_len - size)` without
the `+ 1` for the terminator, so the allocation shrinks to 32 bytes while the
length is 32 — the invariant `capacity ≥ length + 1` fails and the terminator
store `_data[32]` lands out of bounds. -/
theorem c1_erase_capacity_bug :
    ((EraseS (AppendS mkString (List.replicate 33 97) 33) 0 1).map
      (fun t => (effCap t, t.len, decide (t.len + 1 ≤ effCap t)))) = some (32, 32, false) := by
  decide

/-! ### Claim C2 -/

/-- C2: appending 20 bytes to the empty `String` crosses the SSO threshold 16:
the mode becomes `LARGE_STRING` and length 20 and the 20 bytes are reported
exactly; a subsequent `Erase` whose requested size 10 falls below the
threshold switches the mode back to `SMALL_STRING` and frees the heap
block. -/
theorem c2_sso_transition :
    (AppendS mkString (List.replicate 20 97) 20).mode = Mode.large ∧
    (AppendS mkString (List.replicate 20 97) 20).len = 20 ∧
    content (AppendS mkString (List.replicate 20 97) 20) = List.replicate 20 97 ∧
    ((EraseS (AppendS mkString (List.replicate 20 97) 20) 0 10).map
      (fun t => (t.mode, t.freed))) = some (Mode.small, true) := by
  decide

/-! ### Claim C5 -/

/-- C5 (code bug): two evaluations of `Erase` at failing inputs.  First,
`BaseString("##xxx##").Erase(2, 7)` returns OK with length 0, while the claim
(clamping to `L - index = 5`) requires length `7 - 5 = 2` — BaseString.h line
412 clamps the erase length to `l` instead of `l - i`.  Second,
`String` of 20 bytes, `Erase(0, 10)`: the claim requires length
`20 - min(10, 20) = 10`, but `ToSmall` clamps `_len` to 16 during the
heap-to-inline transition and the final length is `16 - 10 = 6`. -/
theorem c5_erase_bugs_eval :
    ((EraseB true (fromCStringB [35, 35, 120, 120, 120, 35, 35] (2 ^ 64 - 1)) 2 7).map
      (fun p => (p.1, p.2.l))) = some (BaseStringError.ok, 0) ∧
    (7 : Nat) - min 7 (7 - 2) = 2 ∧
    ((EraseS (AppendS mkString (List.replicate 20 97) 20) 0 10).map SStr.len) = some 6 ∧
    (20 : Nat) - min 10 (20 - 0) = 10 := by
  decide

/-! ### Claim C10 -/

/-- C10 (code bug): with the empty fill string, the fill loop of
`String::Resize(size, const char*)` copies zero bytes and advances `_len` by
`strlen("") = 0` each iteration, so it never terminates — modelled by the
fuelled loop failing for every fuel; consequently the `Resize` call itself
never completes. -/
theorem c10_resize_empty_fill_diverges :
    (∀ fuel, fillLoop fuel (List.replicate 16 0) 0 5 [] = none) ∧
    ResizeF mkString 5 [] = none := by
  constructor
  · intro fuel
    induction fuel with
    | zero => rfl
    | succ fuel ih => simpa [fillLoop, cstrlen, writeRange] using ih
  · decide

end Strazzle

namespace Strazzle

/-! ### Claim C3 -/

/-- C3: a `Reference` with offset `ri` and length `rn` whose bounds no longer
fit the base's current length makes every content-reading use fail:
`Append(ref)` and `Insert(ref, j)` both run `ref.CheckBounds()` against the
base's length at the moment of use (not at creation), and throw
`std::out_of_range` before touching the base's bytes. -/
theorem c3_reference_use_checked (t base : SStr) (ri rn sz j : Nat)
    (h : base.len < ri + rn) :
    AppendRef t base ri rn sz = none ∧ InsertRef t base ri rn j sz = none := by
  unfold AppendRef InsertRef
  rw [if_pos h, if_pos h]
  exact ⟨rfl, rfl⟩

/-- C3 witness: a Reference `(2, 4)` created by `RefSubstr(2, 4)` on an
8-byte base that is afterwards erased down to 3 bytes; both uses fail. -/
theorem c3_reference_use_checked_witness :
    RefSubstrS (AppendS mkString (List.replicate 8 97) 8) 2 4 = some (2, 4) ∧
    ((EraseS (AppendS mkString (List.replicate 8 97) 8) 0 5).map SStr.len) = some 3 ∧
    (∀ b2, EraseS (AppendS mkString (List.replicate 8 97) 8) 0 5 = some b2 →
      AppendRef mkString b2 2 4 9 = none ∧ InsertRef mkString b2 2 4 0 9 = none) := by
  refine ⟨by decide, by decide, fun b2 hb2 => ?_⟩
  have hlen : b2.len < 2 + 4 := by
    have : (EraseS (AppendS mkString (List.replicate 8 97) 8) 0 5).map SStr.len = some 3 := by
      decide
    rw [hb2] at this
    simp only [Option.map_some'] at this
    have h3 : b2.len = 3 := by injection this
    omega
  exact c3_reference_use_checked mkString b2 2 4 9 0 hlen

end Strazzle

namespace Strazzle

/-! ### Claim C6 -/

theorem resizeAllocation_len_of_lt (s : SStr) (size : Nat) (h : s.len < size) :
    (ResizeAllocation s (size + 1)).len = s.len := by
  unfold ResizeAllocation
  by_cases hres : getExponent (size + 1) < s.resExp
  · rw [if_pos hres]
  · rw [if_neg hres]
    unfold getNewMode
    by_cases hsm : SSO_SIZE ≤ s.len ∧ size + 1 < SSO_SIZE
    · exfalso
      unfold SSO_SIZE at hsm
      omega
    · rw [if_neg hsm]
      by_cases hlg : s.len < SSO_SIZE ∧ SSO_SIZE < size + 1
      · rw [if_pos hlg]
        rfl
      · rw [if_neg hlg]
        by_cases hm : s.mode = Mode.large
        · rw [if_pos hm]
          rfl
        · rw [if_neg hm]

theorem fillLoop_completes (fill : List Nat) (size : Nat) (h2 : 1 ≤ cstrlen fill) :
    ∀ fuel buf len, len < size → size < len + fuel →
      ∃ buf2 len2, fillLoop fuel buf len size fill = some (buf2, len2) ∧
        size ≤ len2 ∧ len2 < size + cstrlen fill ∧ cstrlen fill ∣ (len2 - len) := by
  intro fuel
  induction fuel with
  | zero => intro buf len hlt hfuel; omega
  | succ fuel ih =>
    intro buf len hlt hfuel
    simp only [fillLoop, if_pos hlt]
    by_cases hnext : len + cstrlen fill < size
    · obtain ⟨buf2, len2, heq, hge, hub, hdvd⟩ :=
        ih (writeRange buf len (fill.take (if len + cstrlen fill ≤ size then cstrlen fill
            else size - len))) (len + cstrlen fill) hnext (by omega)
      refine ⟨buf2, len2, heq, hge, hub, ?_⟩
      obtain ⟨c, hc⟩ := hdvd
      refine ⟨c + 1, ?_⟩
      have hmul : cstrlen fill * (c + 1) = cstrlen fill * c + cstrlen fill := by ring
      omega
    · obtain ⟨f, rfl⟩ : ∃ f, fuel = f + 1 := ⟨fuel - 1, by omega⟩
      refine ⟨writeRange buf len (fill.take (if len + cstrlen fill ≤ size then cstrlen fill
          else size - len)), len + cstrlen fill, ?_, by omega, by omega, ⟨1, by omega⟩⟩
      simp only [fillLoop, if_neg (show ¬ len + cstrlen fill < size by omega)]

/-- C6 counterexample: in the claim's own scenario, `Resize(11, "xy")` from
"    " must yield length exactly 11, but `String::Resize` advances `_len` by
the full `strlen(fill)` even on the truncated final copy (String.h line 269),
ending with length 12. -/
theorem c6_resize_fill_length_cex :
    ((ResizeF (ResizeC mkString 4 32) 11 [120, 121]).map SStr.len) = some 12 ∧
    (12 : Nat) ≠ 11 := by
  decide

/-- C6 amended: when growing, `Resize(newSize, fill)` writes whole repetitions
of `fill` and copies only the truncated portion of the final repetition, but
still advances the length by the full `strlen(fill)` each iteration, so the
final length is the least `oldLen + k·strlen(fill)` that is `≥ newSize`
(equal to `newSize` only when `strlen(fill)` divides `newSize - oldLen`).  In
the concrete scenario, `Resize(4)` gives "    ", `Resize(11, "xy")` gives
length 12 whose first 11 bytes are "    xyxyxyx" (the 12th byte is junk), and
the subsequent shrinking `Resize(5)` gives "    x". -/
theorem c6_resize_fill_amended (s : SStr) (size : Nat) (fill : List Nat)
    (h1 : s.len < size) (h2 : 1 ≤ cstrlen fill) :
    (∃ u, ResizeF s size fill = some u ∧
      size ≤ u.len ∧ u.len < size + cstrlen fill ∧ cstrlen fill ∣ (u.len - s.len)) ∧
    content (ResizeC mkString 4 32) = List.replicate 4 32 ∧
    ((ResizeF (ResizeC mkString 4 32) 11 [120, 121]).map
      (fun u => (u.len, (content u).take 11))) =
      some (12, [32, 32, 32, 32, 120, 121, 120, 121, 120, 121, 120]) ∧
    ((ResizeF (ResizeC mkString 4 32) 11 [120, 121]).map
      (fun u => ((ResizeC u 5 32).len, content (ResizeC u 5 32)))) =
      some (5, [32, 32, 32, 32, 120]) := by
  refine ⟨?_, by decide, by decide, by decide⟩
  have hs1 := resizeAllocation_len_of_lt s size h1
  obtain ⟨buf2, len2, heq, hge, hub, hdvd⟩ :=
    fillLoop_completes fill size h2 (size + 1) (ResizeAllocation s (size + 1)).buf
      s.len h1 (by omega)
  refine ⟨{ ResizeAllocation s (size + 1) with buf := upd buf2 len2 0, len := len2 },
    ?_, hge, hub, hdvd⟩
  simp only [ResizeF]
  rw [hs1, if_pos h1, heq]

/-- C6 witness: the amended theorem applied to the scenario's middle step. -/
theorem c6_resize_fill_amended_witness :
    (ResizeC mkString 4 32).len < 11 ∧
    (∃ u, ResizeF (ResizeC mkString 4 32) 11 [120, 121] = some u ∧
      11 ≤ u.len ∧ u.len < 11 + cstrlen [120, 121] ∧
      cstrlen [120, 121] ∣ (u.len - (ResizeC mkString 4 32).len)) :=
  ⟨by decide, (c6_resize_fill_amended (ResizeC mkString 4 32) 11 [120, 121]
    (by decide) (by decide)).1⟩

end Strazzle

namespace Strazzle

/-! ### Claim C7 -/

theorem resizeAllocation_resExp (s : SStr) (z : Nat) :
    (ResizeAllocation s z).resExp = s.resExp := by
  unfold ResizeAllocation
  by_cases hguard : getExponent z < s.resExp
  · rw [if_pos hguard]
  · rw [if_neg hguard]
    unfold getNewMode
    by_cases hsm : SSO_SIZE ≤ s.len ∧ z < SSO_SIZE
    · rw [if_pos hsm]
      rfl
    · rw [if_neg hsm]
      by_cases hlg : s.len < SSO_SIZE ∧ SSO_SIZE < z
      · rw [if_pos hlg]
        rfl
      · rw [if_neg hlg]
        by_cases hm : s.mode = Mode.large
        · rw [if_pos hm]
          rfl
        · rw [if_neg hm]

theorem effCap_toSmall (s : SStr) : effCap (ToSmall s) = 16 := by
  simp [effCap, ToSmall, SSO_SIZE]

theorem effCap_toLarge (s : SStr) (e : Nat) : effCap (ToLarge s e) = expToNum e := by
  simp [effCap, ToLarge]

theorem effCap_reallocS (s : SStr) (e : Nat) (hm : s.mode = Mode.large) :
    effCap (ReallocS s e) = expToNum e := by
  simp [effCap, ReallocS, hm]

/-- `ResizeAllocation` never drops the effective capacity below the reserved
floor `expToNum E`: the reserved-exponent guard keeps the old block for small
requests, a switch to the inline buffer happens only for requests below the
SSO threshold (whose exponent bounds `E` by 4), and reallocation targets
`2^newExp ≥ 2^E`. -/
theorem resizeAllocation_floor (s : SStr) (z E : Nat) (hres : s.resExp = E)
    (hcap : expToNum E ≤ effCap s) :
    (ResizeAllocation s z).resExp = E ∧ expToNum E ≤ effCap (ResizeAllocation s z) := by
  refine ⟨by rw [resizeAllocation_resExp, hres], ?_⟩
  unfold ResizeAllocation
  by_cases hguard : getExponent z < s.resExp
  · rw [if_pos hguard]
    exact hcap
  · rw [if_neg hguard]
    have hE : E ≤ getExponent z := by omega
    have hEle : expToNum E ≤ expToNum (getExponent z) := expToNum_mono _ _ hE
    unfold getNewMode
    by_cases hsm : SSO_SIZE ≤ s.len ∧ z < SSO_SIZE
    · rw [if_pos hsm]
      have hz4 : getExponent z ≤ 4 := getExponent_le_four_of_le_16 z (by
        have := hsm.2
        unfold SSO_SIZE at this
        omega)
      have h16 : expToNum (getExponent z) ≤ 16 :=
        le_trans (expToNum_mono _ _ hz4) (by decide)
      show expToNum E ≤ effCap (ToSmall s)
      rw [effCap_toSmall]
      omega
    · rw [if_neg hsm]
      by_cases hlg : s.len < SSO_SIZE ∧ SSO_SIZE < z
      · rw [if_pos hlg]
        show expToNum E ≤ effCap (ToLarge s (getExponent z))
        rw [effCap_toLarge]
        omega
      · rw [if_neg hlg]
        by_cases hm : s.mode = Mode.large
        · rw [if_pos hm]
          show expToNum E ≤ effCap (ReallocS s (getExponent z))
          rw [effCap_reallocS s _ hm]
          omega
        · rw [if_neg hm]
          exact hcap

theorem erase_floor (s : SStr) (i sz E : Nat) (hres : s.resExp = E)
    (hcap : expToNum E ≤ effCap s) (t : SStr) (heq : EraseS s i sz = some t) :
    t.resExp = E ∧ expToNum E ≤ effCap t := by
  unfold EraseS at heq
  by_cases hb : s.len ≤ i
  · rw [if_pos hb] at heq
    exact absurd heq (by simp)
  · rw [if_neg hb] at heq
    have ht := Option.some.inj heq
    set n := min (s.len - i) sz with hn
    set s1 : SStr :=
      ResizeAllocation { s with buf := memmoveL s.buf i (i + n) (s.len - i) } (s.len - n)
      with hs1
    have hcap0 : expToNum E ≤ effCap { s with buf := memmoveL s.buf i (i + n) (s.len - i) } := by
      have hc : effCap { s with buf := memmoveL s.buf i (i + n) (s.len - i) } = effCap s := by
        simp [effCap]
      omega
    obtain ⟨hr1, hr2⟩ := resizeAllocation_floor
      { s with buf := memmoveL s.buf i (i + n) (s.len - i) } (s.len - n) E hres hcap0
    rw [← ht]
    refine ⟨hr1, ?_⟩
    have hc2 : effCap { s1 with buf := upd s1.buf (subSize s1.len n) 0, len := subSize s1.len n }
        = effCap s1 := by
      simp [effCap]
    rw [← hs1] at hr2
    omega

theorem eraseSeq_floor (E : Nat) (ops : List (Nat × Nat)) :
    ∀ s : SStr, s.resExp = E → expToNum E ≤ effCap s →
      (eraseSeq s ops).resExp = E ∧ expToNum E ≤ effCap (eraseSeq s ops) := by
  induction ops with
  | nil => intro s h1 h2; exact ⟨h1, h2⟩
  | cons p rest ih =>
    intro s h1 h2
    obtain ⟨i, sz⟩ := p
    show (match EraseS s i sz with
      | some t => eraseSeq t rest
      | none => eraseSeq s rest).resExp = E ∧
      expToNum E ≤ effCap (match EraseS s i sz with
      | some t => eraseSeq t rest
      | none => eraseSeq s rest)
    cases heq : EraseS s i sz with
    | none => exact ih s h1 h2
    | some t =>
      obtain ⟨h3, h4⟩ := erase_floor s i sz E h1 h2 t heq
      exact ih t h3 h4

theorem reserve_resExp (s : SStr) (N : Nat) : (Reserve s N).resExp = getExponent N := by
  simp only [Reserve]
  split
  · rw [resizeAllocation_resExp]
  · rfl

/-- When the reservation guard cannot fire (`resExp = getExponent N`),
`ResizeAllocation` with request `N` leaves at least `expToNum (getExponent N)`
of effective capacity, provided a small-mode state fits the inline buffer. -/
theorem resizeAllocation_establish (s : SStr) (N : Nat)
    (hres : s.resExp = getExponent N)
    (hsmall : s.mode = Mode.small → s.len ≤ 15) :
    expToNum (getExponent N) ≤ effCap (ResizeAllocation s N) := by
  unfold ResizeAllocation
  rw [if_neg (by omega)]
  unfold getNewMode
  by_cases hsm : SSO_SIZE ≤ s.len ∧ N < SSO_SIZE
  · rw [if_pos hsm]
    have hz4 : getExponent N ≤ 4 := getExponent_le_four_of_le_16 N (by
      have := hsm.2
      unfold SSO_SIZE at this
      omega)
    have h16 : expToNum (getExponent N) ≤ 16 :=
      le_trans (expToNum_mono _ _ hz4) (by decide)
    show expToNum (getExponent N) ≤ effCap (ToSmall s)
    rw [effCap_toSmall]
    omega
  · rw [if_neg hsm]
    by_cases hlg : s.len < SSO_SIZE ∧ SSO_SIZE < N
    · rw [if_pos hlg]
      show expToNum (getExponent N) ≤ effCap (ToLarge s (getExponent N))
      rw [effCap_toLarge]
    · rw [if_neg hlg]
      by_cases hm : s.mode = Mode.large
      · rw [if_pos hm]
        show expToNum (getExponent N) ≤ effCap (ReallocS s (getExponent N))
        rw [effCap_reallocS s _ hm]
      · rw [if_neg hm]
        have hmode : s.mode = Mode.small := by
          cases hms : s.mode
          · rfl
          · exact absurd hms hm
        have hlen : s.len ≤ 15 := hsmall hmode
        have hN : N ≤ 16 := by
          by_contra hc
          push_neg at hc
          refine hlg ⟨?_, ?_⟩ <;> unfold SSO_SIZE <;> omega
        have hz4 : getExponent N ≤ 4 := getExponent_le_four_of_le_16 N hN
        have h16 : expToNum (getExponent N) ≤ 16 :=
          le_trans (expToNum_mono _ _ hz4) (by decide)
        have hcap : effCap s = 16 := by
          simp [effCap, hmode, SSO_SIZE]
        show expToNum (getExponent N) ≤ effCap s
        omega

/-- `Reserve` leaves the effective capacity at or above
`expToNum (getExponent N)`, provided the state is sane: a small-mode string
fits the inline buffer and the capacity covers the current length rounded
up. -/
theorem reserve_establishes (s : SStr) (N : Nat)
    (h1 : s.mode = Mode.small → s.len ≤ 15)
    (h2 : expToNum (getExponent s.len) ≤ effCap s) :
    expToNum (getExponent N) ≤ effCap (Reserve s N) := by
  simp only [Reserve]
  split
  · exact resizeAllocation_establish { s with resExp := getExponent N } N rfl h1
  · next hskip =>
    have hmono : expToNum (getExponent N) ≤ expToNum (getExponent s.len) :=
      expToNum_mono _ _ (by omega)
    have hc : effCap { s with resExp := getExponent N } = effCap s := by
      simp [effCap]
    omega

/-- C7 counterexample: the claim says `Reserve(N)` raises `reservedExponent`
to `exponentFor(N)` only "if that is larger than the current reservation".
After `Reserve(32)` the reservation is 5, but a subsequent `Reserve(2)` with
`exponentFor(2) = 1 < 5` overwrites it down to 1 (String.h line 325 assigns
unconditionally) — and even shrinks the allocation from 32 bytes to 2. -/
theorem c7_reserve_lowers_cex :
    (Reserve mkString 32).resExp = 5 ∧ getExponent 2 = 1 ∧
    (Reserve (Reserve mkString 32) 2).resExp = 1 ∧
    effCap (Reserve mkString 32) = 32 ∧ effCap (Reserve (Reserve mkString 32) 2) = 2 := by
  decide

/-- C7 amended: `Reserve(N)` sets `reservedExponent` to `exponentFor(N)`
unconditionally (a later smaller `Reserve` lowers it); after the most recent
`Reserve(N)` — starting from any state whose inline content fits the SSO
buffer and whose effective capacity covers its length rounded up to a power
of two — no subsequent sequence of `Erase` calls reduces the effective
capacity below `sizeFor(exponentFor(N))`. -/
theorem c7_reserve_floor_amended (s : SStr) (N : Nat) (ops : List (Nat × Nat))
    (h1 : s.mode = Mode.small → s.len ≤ 15)
    (h2 : expToNum (getExponent s.len) ≤ effCap s) :
    (Reserve s N).resExp = getExponent N ∧
    expToNum (getExponent N) ≤ effCap (eraseSeq (Reserve s N) ops) := by
  have hr := reserve_resExp s N
  have hc := reserve_establishes s N h1 h2
  obtain ⟨ha, hb⟩ := eraseSeq_floor (getExponent N) ops (Reserve s N) hr hc
  exact ⟨hr, hb⟩

/-- C7 witness: the amended theorem at `Reserve(100)` on a 20-byte heap
string followed by the erase sequence `Erase(0,10); Erase(0,17)`. -/
theorem c7_reserve_floor_amended_witness :
    (Reserve (AppendS mkString (List.replicate 20 97) 20) 100).resExp = getExponent 100 ∧
    expToNum (getExponent 100) ≤
      effCap (eraseSeq (Reserve (AppendS mkString (List.replicate 20 97) 20) 100)
        [(0, 10), (0, 17)]) :=
  c7_reserve_floor_amended (AppendS mkString (List.replicate 20 97) 20) 100
    [(0, 10), (0, 17)] (by decide) (by decide)

end Strazzle

namespace Strazzle

/-! ### Claim C8 -/

/-- C8 counterexample: with a failing allocator, `BaseString::Erase(0, 36)` on
a 40-byte string reports `ALLOC_ERR` but has already shifted the content,
set `l = 4` and lowered the allocator's `size_exp` from 6 to 3 — the
container is not in its prior state. -/
theorem c8_erase_alloc_fail_partial_cex :
    ((EraseB false (fromCStringB (List.replicate 40 97) (2 ^ 64 - 1)) 0 36).map
      (fun p => (p.1, p.2.l, p.2.alloc.size_exp))) =
      some (BaseStringError.allocErr, 4, 3) ∧
    (fromCStringB (List.replicate 40 97) (2 ^ 64 - 1)).l = 40 ∧
    (fromCStringB (List.replicate 40 97) (2 ^ 64 - 1)).alloc.size_exp = 6 := by
  decide

/-- With a block in hand and a growing request, a failing allocation makes
`StringAllocator::Resize` report `ALLOC_ERR` and leave the allocator exactly
unchanged: the grow path reaches `ReallocToExp`, whose null-check returns
before any state is touched. -/
theorem resizeA_fail_grow (a : Alloc) (req : Nat) (buf : List Nat)
    (hc : a.c = some buf) (hgrow : 2 ^ a.size_exp < req) :
    ResizeA false a req = (StringAllocError.allocErr, a) := by
  simp only [ResizeA, ReallocA, ReallocToExp]
  rw [if_neg (show ¬ a.c = none from by rw [hc]; exact fun h => Option.noConfusion h)]
  rw [if_neg (show ¬ req < 2 ^ a.size_exp from by omega)]
  rw [if_pos hgrow]
  rfl

/-- C8 amended: when the underlying allocation fails, the operation reports an
allocation error (`ALLOC_ERR` propagated to the caller).  `Append`, `Insert`
and `Resize` reallocate before touching the string, so whenever their initial
growing reallocation fails the container state — length, content, buffer and
allocator bookkeeping — is returned exactly unchanged and the old buffer
remains valid.  `Erase` however performs its content shift and length update
before attempting the shrink reallocation, and a failing shrink also leaves
the allocator's `size_exp` already lowered, so full rollback holds only on
the grow paths. -/
theorem c8_grow_rollback_amended (bs : BStr) (str : List Nat) (i sz size2 : Nat)
    (buf : List Nat) (hc : bs.alloc.c = some buf)
    (hgrow : 2 ^ bs.alloc.size_exp < bs.l + min sz (cstrlen str) + 1)
    (hi : i < bs.l)
    (hgrow2 : 2 ^ bs.alloc.size_exp < size2 + 1) :
    AppendB false bs str sz = (BaseStringError.allocErr, bs) ∧
    InsertB false bs i str sz = some (BaseStringError.allocErr, bs) ∧
    ResizeB false bs size2 str = some (BaseStringError.allocErr, bs) := by
  refine ⟨?_, ?_, ?_⟩
  · simp only [AppendB]
    rw [resizeA_fail_grow bs.alloc _ buf hc hgrow]
  · simp only [InsertB]
    rw [if_neg (show ¬ i = bs.l by omega), if_neg (show ¬ bs.l ≤ i by omega)]
    rw [resizeA_fail_grow bs.alloc _ buf hc hgrow]
  · simp only [ResizeB]
    rw [resizeA_fail_grow bs.alloc _ buf hc hgrow2]

/-- C8 witness: the amended theorem at `BaseString("abc")` (8-byte block,
exponent 3) with a failing allocator: appending or inserting 5 bytes and
resizing to 20 all report the error and leave the string exactly as it
was. -/
theorem c8_grow_rollback_amended_witness :
    AppendB false (fromCStringB [97, 98, 99] (2 ^ 64 - 1)) [100, 101, 102, 103, 104] 100 =
      (BaseStringError.allocErr, fromCStringB [97, 98, 99] (2 ^ 64 - 1)) ∧
    InsertB false (fromCStringB [97, 98, 99] (2 ^ 64 - 1)) 1 [100, 101, 102, 103, 104] 100 =
      some (BaseStringError.allocErr, fromCStringB [97, 98, 99] (2 ^ 64 - 1)) ∧
    ResizeB false (fromCStringB [97, 98, 99] (2 ^ 64 - 1)) 20 [100, 101, 102, 103, 104] =
      some (BaseStringError.allocErr, fromCStringB [97, 98, 99] (2 ^ 64 - 1)) :=
  c8_grow_rollback_amended (fromCStringB [97, 98, 99] (2 ^ 64 - 1))
    [100, 101, 102, 103, 104] 1 100 20 [97, 98, 99, 0, 0, 0, 0, 0]
    (by decide) (by decide) (by decide) (by decide)

end Strazzle


namespace Strazzle

/-! ### Claim C9 -/

/-- For a string living in the inline buffer, `ResizeAllocation` with any
request up to the SSO threshold does nothing: no mode change and no
reallocation. -/
theorem resizeAllocation_small_id (s : SStr) (z : Nat) (hmode : s.mode = Mode.small)
    (hlen : s.len < 16) (hz : z ≤ 16) : ResizeAllocation s z = s := by
  unfold ResizeAllocation
  by_cases hguard : getExponent z < s.resExp
  · rw [if_pos hguard]
  · rw [if_neg hguard]
    unfold getNewMode
    rw [if_neg (show ¬ (SSO_SIZE ≤ s.len ∧ z < SSO_SIZE) from by unfold SSO_SIZE; omega)]
    rw [if_neg (show ¬ (s.len < SSO_SIZE ∧ SSO_SIZE < z) from by unfold SSO_SIZE; omega)]
    rw [if_neg (show ¬ s.mode = Mode.large from by rw [hmode]; exact fun h => Mode.noConfusion h)]

/-- Inline-mode `Erase` in closed form: shift left, terminate, shorten. -/
theorem eraseS_small (s : SStr) (i n : Nat) (hmode : s.mode = Mode.small)
    (hlen : s.len < 16) (hi : i < s.len) :
    EraseS s i n = some { s with
      buf := upd (memmoveL s.buf i (i + min (s.len - i) n) (s.len - i))
        (s.len - min (s.len - i) n) 0
      len := s.len - min (s.len - i) n } := by
  have hRA : ResizeAllocation
      { s with buf := memmoveL s.buf i (i + min (s.len - i) n) (s.len - i) }
      (s.len - min (s.len - i) n)
      = { s with buf := memmoveL s.buf i (i + min (s.len - i) n) (s.len - i) } :=
    resizeAllocation_small_id _ _ hmode (show s.len < 16 from hlen) (by omega)
  have hsub : subSize s.len (min (s.len - i) n) = s.len - min (s.len - i) n :=
    subSize_eq _ _ (by omega) (by omega)
  simp only [EraseS]
  rw [if_neg (show ¬ s.len ≤ i by omega), hRA]
  show some { s with
      buf := upd (memmoveL s.buf i (i + min (s.len - i) n) (s.len - i))
        (subSize s.len (min (s.len - i) n)) 0
      len := subSize s.len (min (s.len - i) n) } = _
  rw [hsub]

/-- Inline-mode `Insert` in closed form: shift right, copy, terminate,
lengthen. -/
theorem insertS_small (s : SStr) (str : List Nat) (i sz : Nat)
    (hmode : s.mode = Mode.small) (hij : i ≤ s.len)
    (hfit : min (cstrlen str) sz + s.len + 1 ≤ 16) :
    InsertS s str i sz = some { s with
      buf := upd (writeRange (memmoveL s.buf (i + min (cstrlen str) sz) i (s.len - i)) i
        (str.take (min (cstrlen str) sz))) (min (cstrlen str) sz + s.len) 0
      len := min (cstrlen str) sz + s.len } := by
  have hRA : ResizeAllocation s (min (cstrlen str) sz + s.len + 1) = s :=
    resizeAllocation_small_id _ _ hmode (by omega) (by omega)
  simp only [InsertS]
  rw [if_neg (show ¬ s.len < i by omega), hRA]

/-- C9 counterexample: a 20-byte `String`, `Erase(0, 10)` and re-`Insert` of
the same 10 erased bytes at index 0 does not restore the content: the
heap-to-inline transition inside `Erase` corrupts `_len` (`ToSmall` clamps it
to 16 before `Erase` subtracts), so the final string has 16 bytes, not 20. -/
theorem c9_erase_insert_cex :
    (((EraseS (AppendS mkString (List.replicate 20 97) 20) 0 10).bind
      (fun u => InsertS u
        (((AppendS mkString (List.replicate 20 97) 20).buf.drop 0).take 10) 0 10)).map
      (fun v => ((content v).length,
        decide (content v = content (AppendS mkString (List.replicate 20 97) 20))))) =
      some (16, false) ∧
    (content (AppendS mkString (List.replicate 20 97) 20)).length = 20 := by
  decide

/-- C9 amended: for a `String` resident in the inline buffer (small mode,
`_data` still the 16-byte SSO buffer, length ≤ 15, null-free content), every
`Erase(i, n)` at a valid index followed by `Insert` of the exact erased bytes
at the same index restores the original content.  (The heap-to-inline
transition excluded here is the case the counterexample shows broken.) -/
theorem c9_erase_insert_inline_amended (s : SStr) (i n : Nat)
    (hmode : s.mode = Mode.small) (_hfreed : s.freed = false)
    (hbuf : s.buf.length = 16) (hlen : s.len ≤ 15)
    (hnz : ∀ t, t < s.len → getB s.buf t ≠ 0)
    (hi : i < s.len) :
    ∃ u v, EraseS s i n = some u ∧
      InsertS u ((s.buf.drop i).take (min (s.len - i) n)) i (min (s.len - i) n) = some v ∧
      content v = content s := by
  obtain ⟨m, hmdef⟩ : ∃ m, min (s.len - i) n = m := ⟨_, rfl⟩
  have hm : m ≤ s.len - i := by omega
  rw [hmdef]
  -- the erased bytes
  have herlen : ((s.buf.drop i).take m).length = m := by
    rw [List.length_take, List.length_drop, hbuf]
    omega
  have her_eq : ∀ t, t < m → getB ((s.buf.drop i).take m) t = getB s.buf (i + t) := by
    intro t ht
    rw [getB_take, if_pos ht, getB_drop]
  have hcst : cstrlen ((s.buf.drop i).take m) = m := by
    rw [cstrlen_eq_length _ (fun t ht => by
      rw [herlen] at ht
      rw [her_eq t ht]
      exact hnz (i + t) (by omega)), herlen]
  -- step 1: Erase
  have hera := eraseS_small s i n hmode (by omega) hi
  rw [hmdef] at hera
  -- step 2: Insert into the erased state
  have hins := insertS_small
    { s with
      buf := upd (memmoveL s.buf i (i + m) (s.len - i)) (s.len - m) 0
      len := s.len - m }
    ((s.buf.drop i).take m) i m hmode
    (show i ≤ s.len - m by omega)
    (show min (cstrlen ((s.buf.drop i).take m)) m + (s.len - m) + 1 ≤ 16 from by
      rw [hcst, Nat.min_self]
      omega)
  rw [hcst, Nat.min_self] at hins
  refine ⟨_, _, hera, hins, ?_⟩
  -- step 3: content is restored
  have hBlen : (memmoveL s.buf i (i + m) (s.len - i)).length = 16 := by
    rw [length_memmoveL, hbuf]
  have huBlen : (upd (memmoveL s.buf i (i + m) (s.len - i)) (s.len - m) 0).length = 16 := by
    rw [length_upd, hBlen]
  have hClen : (memmoveL (upd (memmoveL s.buf i (i + m) (s.len - i)) (s.len - m) 0)
      (i + m) i (s.len - m - i)).length = 16 := by
    rw [length_memmoveL, huBlen]
  have htlen : (((s.buf.drop i).take m).take m).length = m := by
    rw [List.length_take, herlen]
    omega
  simp only [content]
  rw [show m + (s.len - m) = s.len from by omega]
  apply ext_getB
  · rw [List.length_take, List.length_take, hbuf, length_upd, length_writeRange, hClen]
  · intro t ht
    rw [List.length_take, length_upd, length_writeRange, hClen] at ht
    have ht' : t < s.len := by omega
    rw [getB_take, if_pos ht', getB_take, if_pos ht']
    rw [getB_upd, if_neg (by omega)]
    rw [getB_writeRange, htlen]
    by_cases hmid : i ≤ t ∧ t < i + m
    · rw [if_pos ⟨hmid.1, by omega, by omega⟩]
      rw [getB_take, if_pos (show t - i < m by omega)]
      rw [her_eq (t - i) (by omega)]
      rw [show i + (t - i) = t from by omega]
    · rw [if_neg (by omega)]
      rw [getB_memmoveL, huBlen]
      by_cases hhigh : i + m ≤ t
      · rw [if_pos ⟨hhigh, by omega, by omega⟩]
        rw [show i + (t - (i + m)) = t - m from by omega]
        rw [getB_upd, if_neg (by omega)]
        rw [getB_memmoveL, hbuf]
        rw [if_pos ⟨by omega, by omega, by omega⟩]
        rw [show i + m + (t - m - i) = t from by omega]
      · rw [if_neg (by omega)]
        rw [getB_upd, if_neg (by omega)]
        rw [getB_memmoveL, hbuf]
        rw [if_neg (by omega)]

end Strazzle

namespace Strazzle

/-- C9 witness: the amended theorem at a 10-byte inline string, erase of 3
bytes at index 2 and re-insert. -/
theorem c9_erase_insert_inline_amended_witness :
    ∃ u v, EraseS (AppendS mkString (List.replicate 10 97) 10) 2 3 = some u ∧
      InsertS u (((AppendS mkString (List.replicate 10 97) 10).buf.drop 2).take
        (min ((AppendS mkString (List.replicate 10 97) 10).len - 2) 3)) 2
        (min ((AppendS mkString (List.replicate 10 97) 10).len - 2) 3) = some v ∧
      content v = content (AppendS mkString (List.replicate 10 97) 10) :=
  c9_erase_insert_inline_amended (AppendS mkString (List.replicate 10 97) 10) 2 3
    (by decide) (by decide) (by decide) (by decide) (by decide) (by decide)

end Strazzle
